import Mathlib

/-!
Verification development for the decedents-finder repository.

The Python sources (`find_decedents.py`, `voter_db.py`) are shallowly embedded
below.  Text is modelled as `List Char`; Python string methods (`strip`,
`split`, `lower`, slicing) and the regular expressions actually used by the
code (`\d{2}-\d{5}`, `(\d+)\s*years`, `^(\d{8})_`, the `<NEWLINE>`/`<br>`
substitution) are implemented character by character with Python's semantics
(ASCII inputs).  `fuzz.ratio` is modelled after its Levenshtein backend:
`round(200 * lcs / (len a + len b))` with Python's round-half-to-even.
SQLite tables are modelled as association lists, the `processed_decedents`
table as a list of rows, and the pandas CSV load as a function on the file's
rows, with the two exception classes caught by the code (`FileNotFoundError`,
`EmptyDataError`) distinguished from uncaught parser errors.
-/

/-- Python's `\s` / `str.split()` / `str.strip()` whitespace class
(ASCII part: space, tab, newline, carriage return, vertical tab, form feed). -/
def isSpaceChar (c : Char) : Bool :=
  c == ' ' || c == '\t' || c == '\n' || c == '\r' || c == Char.ofNat 11 || c == Char.ofNat 12

/-- Python `str.strip()`: remove leading and trailing whitespace. -/
def stripWS (l : List Char) : List Char :=
  ((l.dropWhile isSpaceChar).reverse.dropWhile isSpaceChar).reverse

/-- Python `str.split()` with no argument: maximal runs of non-whitespace
characters, with empty strings never produced.  (Structural recursion on a
fuel bounded by the list length, so that the kernel can evaluate it; the
natural recursion equations are `wordsWS_nil` and `wordsWS_cons`.) -/
def wordsWSF : Nat → List Char → List (List Char)
  | _, [] => []
  | 0, _ :: _ => []
  | fuel + 1, c :: s =>
    if isSpaceChar c then wordsWSF fuel s
    else (c :: s.takeWhile (fun d => !isSpaceChar d)) ::
      wordsWSF fuel (s.dropWhile (fun d => !isSpaceChar d))

def wordsWS (l : List Char) : List (List Char) := wordsWSF l.length l

/-- Python `' '.join(ws)`. -/
def joinSpaces (ws : List (List Char)) : List Char :=
  List.intercalate [' '] ws

/-- Python `int(s)` for a string of decimal digits. -/
def charsToNat (l : List Char) : Nat :=
  l.foldl (fun n c => 10 * n + (c.toNat - 48)) 0

/-- Length of a longest common subsequence of two character lists. -/
def lcsLenF : Nat → List Char → List Char → Nat
  | _, [], _ => 0
  | _, _ :: _, [] => 0
  | 0, _ :: _, _ :: _ => 0
  | fuel + 1, a :: as, b :: bs =>
    if a = b then lcsLenF fuel as bs + 1
    else max (lcsLenF fuel (a :: as) bs) (lcsLenF fuel as (b :: bs))

def lcsLen (a b : List Char) : Nat := lcsLenF (a.length + b.length) a b

/-- Python 3 `round` on the exact rational `num / den` (`den > 0`):
round half to even. -/
def pyRound (num den : Nat) : Nat :=
  let q := num / den
  let r := num % den
  if 2 * r < den then q
  else if den < 2 * r then q + 1
  else if q % 2 = 0 then q else q + 1

/-- `fuzz.ratio` from fuzzywuzzy (Levenshtein backend): the edit-distance
similarity on a 0–100 scale, `round(100 * (lensum - dist) / lensum)` where the
distance counts substitutions as 2, i.e. `round(200 * lcs / lensum)`;
100 when both strings are empty. -/
def ratio (a b : List Char) : Nat :=
  if a.length + b.length = 0 then 100
  else pyRound (200 * lcsLen a b) (a.length + b.length)

/-- The token list `name.strip().lower().split()` used by `split_name`. -/
def tokensOf (name : List Char) : List (List Char) :=
  wordsWS ((stripWS name).map Char.toLower)

/-- `split_name` from find_decedents.py: first token, interior tokens joined
by spaces, last token; fewer than 2 tokens gives `None, None, None`. -/
def split_name (name : List Char) : Option (List Char × List Char × List Char) :=
  let tokens := tokensOf name
  if tokens.length < 2 then none
  else
    some (tokens.headD [],
          if 2 < tokens.length then joinSpaces (tokens.drop 1).dropLast else [],
          tokens.getLastD [])

/-- `is_name_match` from find_decedents.py: both first- and last-name
similarity ratios must exceed 90; when both middles are nonempty they must be
equal or one must be a single-character initial starting the other. -/
def is_name_match (decedent_name voter_name : List Char) : Bool :=
  match split_name decedent_name, split_name voter_name with
  | some (first1, middle1, last1), some (first2, middle2, last2) =>
    let first_sim := ratio first1 first2
    let last_sim := ratio last1 last2
    if 90 < first_sim ∧ 90 < last_sim then
      if middle1 ≠ [] ∧ middle2 ≠ [] then
        if middle1 = middle2 then true
        else if middle1.length = 1 ∧ middle1.isPrefixOf middle2 then true
        else if middle2.length = 1 ∧ middle2.isPrefixOf middle1 then true
        else false
      else true
    else false
  | _, _ => false

/-- One extracted decedent record: normalized lower-case name, age, and the
`DD-DDDDD` case number. -/
structure DecRec where
  name : List Char
  age : Nat
  case_number : List Char
deriving DecidableEq

/-- Does an 8-character window match the case-number regex `\d{2}-\d{5}`? -/
def isCaseToken (l : List Char) : Bool :=
  l.length == 8 &&
  (l.getD 0 ' ').isDigit && (l.getD 1 ' ').isDigit && l.getD 2 ' ' == '-' &&
  (l.getD 3 ' ').isDigit && (l.getD 4 ' ').isDigit && (l.getD 5 ' ').isDigit &&
  (l.getD 6 ' ').isDigit && (l.getD 7 ' ').isDigit

/-- `re.finditer(r'(\d{2}-\d{5})', text)`: the start positions of the
non-overlapping matches, scanning left to right; `i` is the absolute position
of the head of the remaining suffix. -/
def caseScanF : Nat → Nat → List Char → List Nat
  | _, _, [] => []
  | 0, _, _ :: _ => []
  | fuel + 1, i, c :: s =>
    if isCaseToken ((c :: s).take 8) then i :: caseScanF fuel (i + 8) (s.drop 7)
    else caseScanF fuel (i + 1) s

def caseScan (i : Nat) (l : List Char) : List Nat := caseScanF l.length i l

/-- Does `(\d+)\s*years` match at the head of `l`?  The regex engine's
leftmost-greedy search reduces to: a maximal digit run, then a maximal
whitespace run, then the literal `years` (backtracking cannot help because a
shorter digit run is followed by a digit, which is neither whitespace nor
`y`).  Returns the digit group. -/
def ageMatchHere (l : List Char) : Option (List Char) :=
  let ds := l.takeWhile Char.isDigit
  if ds.isEmpty then none
  else
    let rest := l.drop ds.length
    let rest2 := rest.drop (rest.takeWhile isSpaceChar).length
    if rest2.take 5 = ['y', 'e', 'a', 'r', 's'] then some ds else none

/-- `re.search(r'(\d+)\s*years', entry)`: earliest start position of a match,
together with the digit group. -/
def ageSearch (i : Nat) : List Char → Option (Nat × List Char)
  | [] => none
  | c :: s =>
    match ageMatchHere (c :: s) with
    | some ds => some (i, ds)
    | none => ageSearch (i + 1) s

/-- End of entry `i`'s span: the start of case match `i + 1`, or the end of
the text for the last entry. -/
def entryEnd (t : List Char) (i : Nat) : Nat :=
  match (caseScan 0 t)[i + 1]? with
  | some nxt => nxt
  | none => t.length

/-- `re.sub(r'(<NEWLINE>|<br>)', ' ', l)`: replace every line-break marker
with a single space, scanning left to right. -/
def subMarkersF : Nat → List Char → List Char
  | _, [] => []
  | 0, _ :: _ => []
  | fuel + 1, c :: s =>
    if (c :: s).take 9 = ['<', 'N', 'E', 'W', 'L', 'I', 'N', 'E', '>'] then
      ' ' :: subMarkersF fuel (s.drop 8)
    else if (c :: s).take 4 = ['<', 'b', 'r', '>'] then
      ' ' :: subMarkersF fuel (s.drop 3)
    else c :: subMarkersF fuel s

def subMarkers (l : List Char) : List Char := subMarkersF l.length l

/-- The name-normalization pipeline performed by the extractor on the raw
slice between case number and age token: `strip`, substitute line-break
markers, `strip`, `' '.join(split())`, `lower`. -/
def normalizeName (l : List Char) : List Char :=
  (joinSpaces (wordsWS (stripWS (subMarkers (stripWS l))))).map Char.toLower

/-- The per-page entry loop of `extract_names_and_ages_from_pdf`, applied to
the page text in which `'\n'` has already been replaced by `' <NEWLINE> '`:
case matches delimit entries, entries without an age token are dropped, the
kept entries yield (normalized name, age, case number). -/
def extractEntries (text : List Char) : List DecRec :=
  let ms := caseScan 0 text
  (List.range ms.length).filterMap (fun i =>
    match ms[i]? with
    | none => none
    | some start_idx =>
      let end_idx := entryEnd text i
      let entry_text := (text.drop start_idx).take (end_idx - start_idx)
      let case_num := (text.drop start_idx).take 8
      match ageSearch 0 entry_text with
      | none => none
      | some (p, ds) =>
        let name_text := (entry_text.drop case_num.length).take (p - case_num.length)
        some ⟨normalizeName name_text, charsToNat ds, case_num⟩)

/-- `text.replace('\n', ' <NEWLINE> ')`. -/
def replaceNewlines : List Char → List Char
  | [] => []
  | c :: s =>
    if c = '\n' then ' ' :: '<' :: 'N' :: 'E' :: 'W' :: 'L' :: 'I' :: 'N' :: 'E' :: '>' :: ' ' :: replaceNewlines s
    else c :: replaceNewlines s

/-- `extract_names_and_ages_from_pdf`: each page's text (`none` or the empty
list is skipped, as by `if not text: continue`) is marked and scanned; the
per-page record lists are concatenated in page order. -/
def extract_names_and_ages_from_pdf (pages : List (Option (List Char))) : List DecRec :=
  pages.foldr
    (fun pg acc =>
      match pg with
      | none => acc
      | some raw => if raw.isEmpty then acc else extractEntries (replaceNewlines raw) ++ acc)
    []

/-- Spec-side description of the entry spans: entry `i` runs from the start of
case match `i` to the start of case match `i + 1`, or to the end of the text
for the last entry. -/
def entrySpans (t : List Char) : List (Nat × Nat) :=
  let ms := caseScan 0 t
  (List.range ms.length).map (fun i => (ms.getD i 0, entryEnd t i))

/-- Spec-side record builder for one entry span: `none` exactly when the span
contains no age token. -/
def recOfSpan (t : List Char) (sp : Nat × Nat) : Option DecRec :=
  let entry := (t.drop sp.1).take (sp.2 - sp.1)
  match ageSearch 0 entry with
  | none => none
  | some (p, ds) =>
    some ⟨normalizeName ((entry.drop 8).take (p - 8)), charsToNat ds, (t.drop sp.1).take 8⟩

/-- The claim's description of the extracted name: the slice with line-break
markers collapsed to single spaces, whitespace runs normalized to single
spaces and surrounding whitespace removed (realized as join-of-split), and
the result lower-cased. -/
def claimNameNormal (l : List Char) : List Char :=
  (joinSpaces (wordsWS (subMarkers l))).map Char.toLower

/-- One row of the `processed_decedents` SQLite table. -/
structure LedgerRow where
  name : List Char
  age : Nat
  first_seen_date : List Char
  last_seen_date : List Char
  case_number : List Char
  run_id : List Char
deriving DecidableEq

/-- The `processed_decedents` table, primary key `(case_number, run_id)`. -/
abbrev Ledger := List LedgerRow

/-- `initialize_decedents_table`: with `reset` the table is dropped and
recreated empty; otherwise `CREATE TABLE IF NOT EXISTS` keeps the rows. -/
def initialize_decedents_table (L : Ledger) (reset : Bool) : Ledger :=
  if reset then [] else L

/-- `process_decedent` from find_decedents.py.  The first query (any run,
newest first, LIMIT 1) and the second (this run) are existence checks; a case
seen in this run, or in any run at all, is skipped, otherwise a fresh row
with `first_seen_date = last_seen_date = pdf_date` is inserted.  Returns the
Python boolean and the table after the call. -/
def process_decedent (L : Ledger) (dec : DecRec) (pdf_date run_id : List Char) :
    Bool × Ledger :=
  let previous_result := L.any (fun r => decide (r.case_number = dec.case_number))
  let current_run_result :=
    L.any (fun r => decide (r.case_number = dec.case_number ∧ r.run_id = run_id))
  if current_run_result then (false, L)
  else if previous_result then (false, L)
  else (true, ⟨dec.name, dec.age, pdf_date, pdf_date, dec.case_number, run_id⟩ :: L)

/-- Ledger states reachable from `L` by any sequence of `process_decedent`
calls (with arbitrary decedents, dates and run ids). -/
inductive Reaches : Ledger → Ledger → Prop
  | refl (L : Ledger) : Reaches L L
  | step (L L' : Ledger) (dec : DecRec) (pdf_date run_id : List Char) :
      Reaches L L' → Reaches L (process_decedent L' dec pdf_date run_id).2

/-- Some ledger row carries this case number. -/
def hasCase (L : Ledger) (c : List Char) : Prop :=
  ∃ r ∈ L, r.case_number = c

/-- One row of a `voters_YYYYMMDD` table, restricted to the columns the
matcher reads (`FName`, `MName`, `LName`, `Birthyear`); the remaining columns
are carried along by the code but never examined by it. -/
structure Voter where
  fname : List Char
  mname : List Char
  lname : List Char
  birthyear : Int
deriving DecidableEq

/-- The SQLite database: association list of table name to voter rows. -/
abbrev VotersDB := List (List Char × List Voter)

/-- A voter-registration extract file: its (base)name, and `none` when the
file does not exist, otherwise the pipe-split rows (each row a list of
fields). -/
structure VoterFile where
  filename : List Char
  contents : Option (List (List (List Char)))

/-- `extract_date_from_voter_file`: `re.search(r'^(\d{8})_', basename)`, with
today's date (`YYYYMMDD`) as fallback. -/
def extract_date_from_voter_file (filename today : List Char) : List Char :=
  if (filename.take 8).length == 8 && (filename.take 8).all Char.isDigit
      && filename.getD 8 ' ' == '_' then
    filename.take 8
  else today

/-- Outcome of `pd.read_csv(voter_file, delimiter='|', header=0, names=[33
columns], dtype=str)`: a missing file raises `FileNotFoundError`, a file with
no rows at all raises `EmptyDataError`, and otherwise the header row is
dropped and the data rows are returned.  The first data row establishes the
table width: when it is wider than the 33 declared names, pandas absorbs its
extra leading field(s) as the implicit index (no error; the index columns are
discarded here, matching `to_sql(..., index=False)`), and a tokenizer
`ParserError` is raised only when a *later* row exceeds the width established
by the first data row. -/
inductive ReadCsvResult
  | fileNotFound
  | emptyData
  | tokenizeError
  | ok (rows : List (List (List Char)))

def readCsv (contents : Option (List (List (List Char)))) : ReadCsvResult :=
  match contents with
  | none => .fileNotFound
  | some [] => .emptyData
  | some (_hdr :: rows) =>
    match rows with
    | [] => .ok []
    | first :: _ =>
      let width := first.length
      let k := width - 33
      if rows.any (fun row => width < row.length) then .tokenizeError
      else .ok (rows.map (fun row => row.drop k))

/-- `pd.to_numeric(field, errors='coerce')` on the Birthyear column followed
by `dropna` and `astype(int)`: a missing or non-numeric field drops the row.
(Modelled for decimal-digit strings.) -/
def parseBirthyear (field : Option (List Char)) : Option Int :=
  match field with
  | none => none
  | some ds => if ds ≠ [] && ds.all Char.isDigit then some (charsToNat ds : Int) else none

/-- The voter table built from the CSV data rows: column 1/2/3 are
FName/MName/LName, column 5 is Birthyear; rows whose birth year does not
parse are dropped. -/
def buildTable (rows : List (List (List Char))) : List Voter :=
  rows.filterMap (fun row =>
    match parseBirthyear row[5]? with
    | none => none
    | some by2 => some ⟨row.getD 1 [], row.getD 2 [], row.getD 3 [], by2⟩)

def tableExists (db : VotersDB) (n : List Char) : Bool :=
  db.any (fun e => e.1 == n)

/-- The table name `voters_<date>` derived from the voter file's name. -/
def voterTableName (f : VoterFile) (today : List Char) : List Char :=
  ['v', 'o', 't', 'e', 'r', 's', '_'] ++ extract_date_from_voter_file f.filename today

/-- Result of `load_voter_registration_to_sqlite`: the connection (database
plus the date table name), the caught-and-logged `None` return, or an
exception class that the `except (FileNotFoundError, EmptyDataError)` clause
does not catch and that therefore propagates. -/
inductive LoadResult
  | ok (db : VotersDB) (table_name : List Char)
  | loadFailed
  | raised
deriving DecidableEq

/-- `load_voter_registration_to_sqlite` from find_decedents.py: if the dated
table already exists it is reused without reading the file; otherwise the
file is read (`FileNotFoundError`/`EmptyDataError` are caught and `None` is
returned; a tokenizer error is not caught) and the new table is stored. -/
def load_voter_registration_to_sqlite (db : VotersDB) (f : VoterFile) (today : List Char) :
    LoadResult :=
  let table_name := voterTableName f today
  if tableExists db table_name then .ok db table_name
  else
    match readCsv f.contents with
    | .fileNotFound => .loadFailed
    | .emptyData => .loadFailed
    | .tokenizeError => .raised
    | .ok rows => .ok ((table_name, buildTable rows) :: db) table_name

/-- Fallback year when the PDF year is unavailable (module constant). -/
def CURRENT_YEAR : Int := 2024

/-- The `possible_birth_years` list of `match_decedents_with_voters`:
`[reference_year - age - 1, reference_year - age]`. -/
def possible_birth_years (reference_year : Int) (age : Nat) : List Int :=
  [reference_year - age - 1, reference_year - age]

/-- The voter name the matcher scores:
`f"{FName} {MName} {LName}".strip().lower()`. -/
def voterFullName (v : Voter) : List Char :=
  (stripWS (v.fname ++ ' ' :: v.mname ++ ' ' :: v.lname)).map Char.toLower

/-- SQLite TEXT ordering (byte order) on names, strict. -/
def charListLt : List Char → List Char → Bool
  | [], [] => false
  | [], _ :: _ => true
  | _ :: _, [] => false
  | a :: as, b :: bs =>
    if a.toNat < b.toNat then true
    else if b.toNat < a.toNat then false
    else charListLt as bs

/-- `SELECT name FROM sqlite_master WHERE name LIKE 'voters_%' ORDER BY name
DESC LIMIT 1`, resolved to that table's rows. -/
def latestVotersTable (db : VotersDB) : Option (List Char × List Voter) :=
  db.foldl
    (fun acc e =>
      if (['v', 'o', 't', 'e', 'r', 's', '_']).isPrefixOf e.1 then
        match acc with
        | none => some e
        | some best => if charListLt best.1 e.1 then some e else some best
      else acc)
    none

/-- `match_decedents_with_voters` from find_decedents.py: for each decedent
`(name, age)`, query the latest voters table for rows whose `Birthyear` is in
`possible_birth_years` (reference year = the PDF year, or `CURRENT_YEAR` when
the PDF year is falsy), then keep the rows whose rebuilt full name passes
`is_name_match`. -/
def match_decedents_with_voters (decedents : List (List Char × Nat)) (db : VotersDB)
    (pdf_year : Int) : List (List Char × Voter) :=
  match latestVotersTable db with
  | none => []
  | some tbl =>
    decedents.flatMap (fun d =>
      let reference_year := if pdf_year ≠ 0 then pdf_year else CURRENT_YEAR
      let rows := tbl.2.filter (fun v => (possible_birth_years reference_year d.2).contains v.birthyear)
      (rows.filter (fun v => is_name_match d.1 (voterFullName v))).map (fun v => (d.1, v)))

/-- A calendar date, as produced by `datetime.strptime(s, '%m%d%Y')`. -/
structure Date where
  year : Nat
  month : Nat
  day : Nat
deriving DecidableEq

def isLeapYear (y : Nat) : Bool :=
  (y % 4 == 0 && y % 100 != 0) || y % 400 == 0

def daysInMonth (y m : Nat) : Nat :=
  if m = 2 then (if isLeapYear y then 29 else 28)
  else if m = 4 ∨ m = 6 ∨ m = 9 ∨ m = 11 then 30
  else 31

/-- First window of 8 consecutive digits in the string (`re.search(r'\d{8}')`). -/
def digits8At? : List Char → Option (List Char)
  | [] => none
  | c :: s =>
    if ((c :: s).take 8).length == 8 && ((c :: s).take 8).all Char.isDigit then
      some ((c :: s).take 8)
    else digits8At? s

/-- `extract_date_from_filename`: first 8-digit substring parsed as
`MMDDYYYY`; an invalid calendar date (or no digits) gives `None`. -/
def extract_date_from_filename (filename : List Char) : Option Date :=
  match digits8At? filename with
  | none => none
  | some ds =>
    let mm := charsToNat (ds.take 2)
    let dd := charsToNat ((ds.drop 2).take 2)
    let yyyy := charsToNat (ds.drop 4)
    if 1 ≤ mm ∧ mm ≤ 12 ∧ 1 ≤ dd ∧ dd ≤ daysInMonth yyyy mm ∧ 1 ≤ yyyy then
      some ⟨yyyy, mm, dd⟩
    else none

def dateLt (a b : Date) : Bool :=
  decide (a.year < b.year ∨ (a.year = b.year ∧
    (a.month < b.month ∨ (a.month = b.month ∧ a.day < b.day))))

/-- `is_older_than_two_months`: `file_date < datetime.now() - timedelta(days=60)`;
the pre-computed right-hand side is passed in as `cutoff`. -/
def is_older_than_two_months (file_date cutoff : Date) : Bool :=
  dateLt file_date cutoff

/-- `pdf_date.strftime('%Y-%m-%d')` (two-digit month and day, four-digit year). -/
def pad2 (n : Nat) : List Char :=
  [Char.ofNat (48 + n / 10 % 10), Char.ofNat (48 + n % 10)]

def dateToStr (d : Date) : List Char :=
  [Char.ofNat (48 + d.year / 1000 % 10), Char.ofNat (48 + d.year / 100 % 10),
   Char.ofNat (48 + d.year / 10 % 10), Char.ofNat (48 + d.year % 10), '-'] ++
  pad2 d.month ++ '-' :: pad2 d.day

/-- A downloaded PDF: its filename and its pages' extracted text. -/
structure PdfFile where
  filename : List Char
  pages : List (Option (List Char))

/-- The per-batch loop of `main`: keep `.pdf` files that are not `.org.pdf`,
sort by extracted date (undated files last, via `datetime.max`), and for each
file: skip undated or too-recent files, extract decedents, filter them
through `process_decedent`, and when any survive, match them against the
voters and emit a report (modelled as the match list). -/
def runBatch (db : VotersDB) (L : Ledger) (pdfs : List PdfFile) (run_id : List Char)
    (cutoff : Date) : List (List Char × List (List Char × Voter)) × Ledger :=
  let files := pdfs.filter (fun f =>
    (['.', 'p', 'd', 'f']).isSuffixOf f.filename &&
    !(['.', 'o', 'r', 'g', '.', 'p', 'd', 'f']).isSuffixOf f.filename)
  let key := fun (f : PdfFile) => (extract_date_from_filename f.filename).getD ⟨9999, 12, 31⟩
  let sorted := files.mergeSort (fun a b => !dateLt (key b) (key a))
  sorted.foldl
    (fun acc f =>
      match extract_date_from_filename f.filename with
      | none => acc
      | some pdf_date =>
        if !is_older_than_two_months pdf_date cutoff then acc
        else
          let decedents := extract_names_and_ages_from_pdf f.pages
          if decedents.isEmpty then acc
          else
            let st := decedents.foldl
              (fun st dec =>
                let pr := process_decedent st.2 dec (dateToStr pdf_date) run_id
                (if pr.1 then st.1 ++ [(dec.name, dec.age)] else st.1, pr.2))
              (([] : List (List Char × Nat)), acc.2)
            if st.1.isEmpty then (acc.1, st.2)
            else
              let found := match_decedents_with_voters st.1 db (pdf_date.year : Int)
              (acc.1 ++ [(f.filename, found)], st.2))
    (([], L))

/-- The observable outcome of `main`: an uncaught exception, the early return
after `load_voter_registration_to_sqlite` yields `None` (no extraction or
matching happens), or a completed batch with its reports and final ledger. -/
inductive MainResult
  | raised
  | abortedNoVoterData
  | completed (reports : List (List Char × List (List Char × Voter))) (L : Ledger)
deriving DecidableEq

/-- `main` from find_decedents.py (named `mainRun` because Lean reserves
`main` for the entry point). -/
def mainRun (db : VotersDB) (L : Ledger) (voter_file : VoterFile) (today : List Char)
    (pdfs : List PdfFile) (run_id : List Char) (cutoff : Date) (reset : Bool) : MainResult :=
  match load_voter_registration_to_sqlite db voter_file today with
  | .raised => .raised
  | .loadFailed => .abortedNoVoterData
  | .ok db' _ =>
    let L0 := initialize_decedents_table L reset
    let br := runBatch db' L0 pdfs run_id cutoff
    .completed br.1 br.2

/-! ## Ledger lemmas (deduplication, C1 and C10) -/

theorem hasCase_iff_any (L : Ledger) (c : List Char) :
    hasCase L c ↔ L.any (fun r => decide (r.case_number = c)) = true := by
  simp [hasCase, List.any_eq_true]

theorem process_decedent_fst_true_iff (L : Ledger) (dec : DecRec) (dt r : List Char) :
    (process_decedent L dec dt r).1 = true ↔ ¬ hasCase L dec.case_number := by
  unfold process_decedent
  cases hcur : L.any (fun row => decide (row.case_number = dec.case_number ∧ row.run_id = r)) with
  | true =>
    simp only [hcur, if_true]
    rw [List.any_eq_true] at hcur
    obtain ⟨row, hrow, hp⟩ := hcur
    simp only [decide_eq_true_eq] at hp
    simp only [hasCase]
    constructor
    · intro h; exact absurd h (by simp)
    · intro h; exact absurd ⟨row, hrow, hp.1⟩ h
  | false =>
    cases hprev : L.any (fun row => decide (row.case_number = dec.case_number)) with
    | true =>
      simp only [hcur, hprev, if_false, if_true, Bool.false_eq_true]
      rw [List.any_eq_true] at hprev
      obtain ⟨row, hrow, hp⟩ := hprev
      simp only [decide_eq_true_eq] at hp
      simp only [hasCase]
      constructor
      · intro h; exact absurd h (by simp)
      · intro h; exact absurd ⟨row, hrow, hp⟩ h
    | false =>
      simp only [hcur, hprev, if_false]
      rw [hasCase_iff_any, hprev]
      simp

instance (L : Ledger) (c : List Char) : Decidable (hasCase L c) :=
  decidable_of_iff _ (hasCase_iff_any L c).symm

theorem process_decedent_eq (L : Ledger) (dec : DecRec) (dt r : List Char) :
    process_decedent L dec dt r =
      if hasCase L dec.case_number then (false, L)
      else (true, ⟨dec.name, dec.age, dt, dt, dec.case_number, r⟩ :: L) := by
  have hiff := hasCase_iff_any L dec.case_number
  by_cases hprev : hasCase L dec.case_number
  · have hprevb := hiff.mp hprev
    rw [if_pos hprev]
    simp only [process_decedent]
    cases L.any (fun row => decide (row.case_number = dec.case_number ∧ row.run_id = r))
    · rw [hprevb]; simp
    · simp
  · have hprevb : L.any (fun row => decide (row.case_number = dec.case_number)) = false := by
      cases hb : L.any (fun row => decide (row.case_number = dec.case_number))
      · rfl
      · exact absurd (hiff.mpr hb) hprev
    have hcurb : L.any (fun row => decide (row.case_number = dec.case_number ∧ row.run_id = r)) = false := by
      cases hb : L.any (fun row => decide (row.case_number = dec.case_number ∧ row.run_id = r))
      · rfl
      · rw [List.any_eq_true] at hb
        obtain ⟨row, hrow, hp⟩ := hb
        simp only [decide_eq_true_eq] at hp
        exact absurd ⟨row, hrow, hp.1⟩ hprev
    rw [if_neg hprev]
    simp only [process_decedent]
    rw [hcurb, hprevb]
    simp

theorem process_decedent_snd_of_true (L : Ledger) (dec : DecRec) (dt r : List Char)
    (h : (process_decedent L dec dt r).1 = true) :
    (process_decedent L dec dt r).2 =
      ⟨dec.name, dec.age, dt, dt, dec.case_number, r⟩ :: L := by
  by_cases hc : hasCase L dec.case_number
  · rw [process_decedent_eq, if_pos hc] at h; simp at h
  · rw [process_decedent_eq, if_neg hc]

theorem process_decedent_snd_of_false (L : Ledger) (dec : DecRec) (dt r : List Char)
    (h : (process_decedent L dec dt r).1 = false) :
    (process_decedent L dec dt r).2 = L := by
  by_cases hc : hasCase L dec.case_number
  · rw [process_decedent_eq, if_pos hc]
  · rw [process_decedent_eq, if_neg hc] at h; simp at h

theorem process_decedent_snd_cases (L : Ledger) (dec : DecRec) (dt r : List Char) :
    (process_decedent L dec dt r).2 = L ∨
    (process_decedent L dec dt r).2 =
      ⟨dec.name, dec.age, dt, dt, dec.case_number, r⟩ :: L := by
  cases h : (process_decedent L dec dt r).1 with
  | true => exact Or.inr (process_decedent_snd_of_true L dec dt r h)
  | false => exact Or.inl (process_decedent_snd_of_false L dec dt r h)

theorem hasCase_process (L : Ledger) (dec : DecRec) (dt r c : List Char)
    (h : hasCase L c) : hasCase (process_decedent L dec dt r).2 c := by
  rcases process_decedent_snd_cases L dec dt r with heq | heq <;> rw [heq]
  · exact h
  · obtain ⟨row, hrow, hc⟩ := h
    exact ⟨row, List.mem_cons_of_mem _ hrow, hc⟩

theorem hasCase_of_reaches (L L' : Ledger) (c : List Char)
    (hr : Reaches L L') (h : hasCase L c) : hasCase L' c := by
  induction hr with
  | refl => exact h
  | step L2 dec dt rid _ ih => exact hasCase_process L2 dec dt rid c ih

theorem process_decedent_fst_false_of_hasCase (L : Ledger) (dec : DecRec) (dt r : List Char)
    (h : hasCase L dec.case_number) : (process_decedent L dec dt r).1 = false := by
  cases hb : (process_decedent L dec dt r).1 with
  | false => rfl
  | true => exact absurd h ((process_decedent_fst_true_iff L dec dt r).mp hb)

/-- C1.  Ledger suppression for `process_decedent`: once a call records a case
number (returns true), every later call for that case number — in the same
run or in any other run, after any further sequence of `process_decedent`
calls — returns false; and a call for a case number fresh to the whole ledger
returns true and inserts the row keyed by `(case_number, run_id)`. -/
theorem c1_ledger_suppression (L : Ledger) (dec : DecRec) (pdf_date run_id1 : List Char) :
    ((process_decedent L dec pdf_date run_id1).1 = true →
      ∀ L', Reaches (process_decedent L dec pdf_date run_id1).2 L' →
      ∀ (dec' : DecRec) (pdf_date' run_id2 : List Char),
        dec'.case_number = dec.case_number →
        (process_decedent L' dec' pdf_date' run_id2).1 = false)
    ∧ (¬ hasCase L dec.case_number →
        (process_decedent L dec pdf_date run_id1).1 = true ∧
        (process_decedent L dec pdf_date run_id1).2 =
          ⟨dec.name, dec.age, pdf_date, pdf_date, dec.case_number, run_id1⟩ :: L) := by
  constructor
  · intro htrue L' hreach dec' pdf_date' run_id2 hcase
    have h1 : hasCase (process_decedent L dec pdf_date run_id1).2 dec.case_number := by
      rw [process_decedent_snd_of_true L dec pdf_date run_id1 htrue]
      exact ⟨_, List.mem_cons_self _ _, rfl⟩
    have h2 := hasCase_of_reaches _ L' dec.case_number hreach h1
    rw [← hcase] at h2
    exact process_decedent_fst_false_of_hasCase L' dec' pdf_date' run_id2 h2
  · intro hfresh
    have htrue := (process_decedent_fst_true_iff L dec pdf_date run_id1).mpr hfresh
    exact ⟨htrue, process_decedent_snd_of_true L dec pdf_date run_id1 htrue⟩

theorem c1_ledger_suppression_witness :
    (process_decedent [] ⟨['j', 'o', 'h', 'n'], 45, ['2', '3', '-', '1', '0', '0', '0', '1']⟩
      ['2', '0', '2', '5'] ['r', '1']).1 = true ∧
    (process_decedent
      (process_decedent [] ⟨['j', 'o', 'h', 'n'], 45, ['2', '3', '-', '1', '0', '0', '0', '1']⟩
        ['2', '0', '2', '5'] ['r', '1']).2
      ⟨['j', 'o', 'h', 'n'], 45, ['2', '3', '-', '1', '0', '0', '0', '1']⟩
      ['2', '0', '2', '6'] ['r', '2']).1 = false := by
  have h := c1_ledger_suppression []
    ⟨['j', 'o', 'h', 'n'], 45, ['2', '3', '-', '1', '0', '0', '0', '1']⟩
    ['2', '0', '2', '5'] ['r', '1']
  have hfresh : ¬ hasCase [] (['2', '3', '-', '1', '0', '0', '0', '1'] : List Char) := by
    simp [hasCase]
  have h2 := h.2 hfresh
  exact ⟨h2.1, h.1 h2.1 _ (Reaches.refl _) _ ['2', '0', '2', '6'] ['r', '2'] rfl⟩

/-- C10.  Every row ever inserted by `process_decedent` has
`first_seen_date = last_seen_date` (both the PDF date at insertion); a call
either leaves the table unchanged or prepends one fresh row, so existing rows
are never modified or deleted; only `initialize_decedents_table` with `reset`
empties the table, and without `reset` it keeps the table as is. -/
theorem c10_ledger_rows_frozen :
    (∀ (L : Ledger) (dec : DecRec) (dt r : List Char),
      (process_decedent L dec dt r).2 = L ∨
      (process_decedent L dec dt r).2 =
        ⟨dec.name, dec.age, dt, dt, dec.case_number, r⟩ :: L)
    ∧ (∀ L L', Reaches L L' → L <:+ L')
    ∧ (∀ L L', Reaches L L' →
        (∀ row ∈ L, row.first_seen_date = row.last_seen_date) →
        ∀ row ∈ L', row.first_seen_date = row.last_seen_date)
    ∧ (∀ L : Ledger,
        initialize_decedents_table L true = [] ∧ initialize_decedents_table L false = L) := by
  refine ⟨process_decedent_snd_cases, ?_, ?_, fun L => ⟨rfl, rfl⟩⟩
  · intro L L' hr
    induction hr with
    | refl => exact List.suffix_refl _
    | step L'' dec dt rid _ ih =>
      rcases process_decedent_snd_cases L'' dec dt rid with heq | heq <;> rw [heq]
      · exact ih
      · exact ih.trans (List.suffix_cons _ _)
  · intro L L' hr hinv
    induction hr with
    | refl => exact hinv
    | step L'' dec dt rid _ ih =>
      rcases process_decedent_snd_cases L'' dec dt rid with heq | heq <;> rw [heq]
      · exact ih
      · intro row hrow
        rcases List.mem_cons.mp hrow with h | h
        · rw [h]
        · exact ih row h

theorem c10_ledger_rows_frozen_witness :
    ([] : Ledger) <:+
      (process_decedent [] ⟨['j', 'o', 'h', 'n'], 45, ['2', '3', '-', '1', '0', '0', '0', '2']⟩
        ['2', '0', '2', '5'] ['r', '1']).2 ∧
    (⟨['j', 'o', 'h', 'n'], 45, ['2', '0', '2', '5'], ['2', '0', '2', '5'],
      ['2', '3', '-', '1', '0', '0', '0', '2'], ['r', '1']⟩ : LedgerRow).first_seen_date =
    (⟨['j', 'o', 'h', 'n'], 45, ['2', '0', '2', '5'], ['2', '0', '2', '5'],
      ['2', '3', '-', '1', '0', '0', '0', '2'], ['r', '1']⟩ : LedgerRow).last_seen_date := by
  have h := c10_ledger_rows_frozen
  have hr : Reaches []
      (process_decedent [] ⟨['j', 'o', 'h', 'n'], 45, ['2', '3', '-', '1', '0', '0', '0', '2']⟩
        ['2', '0', '2', '5'] ['r', '1']).2 :=
    Reaches.step _ _ _ _ _ (Reaches.refl _)
  refine ⟨h.2.1 _ _ hr, ?_⟩
  exact h.2.2.1 _ _ hr (by simp) _ (by decide)

/-! ## Birth-year windowing (C4) -/

/-- C4.  `match_decedents_with_voters` scores a voter for a decedent of age
`a` exactly when the voter's stored birth year is `y - a - 1` or `y - a`, `y`
being the PDF year (or `CURRENT_YEAR` when the PDF year is falsy): a pair is
emitted iff the decedent is in the batch, the voter is in the latest voters
table with a birth year in that window, and the name matcher accepts it.  The
queried candidate list is `[y - a - 1, y - a]`; at age 66 with reference year
2024 this is `[1957, 1958]`. -/
theorem c4_birth_year_window :
    (∀ (decedents : List (List Char × Nat)) (db : VotersDB) (pdf_year : Int)
       (tbl : List Char × List Voter),
       latestVotersTable db = some tbl →
       ∀ (nm : List Char) (v : Voter),
         ((nm, v) ∈ match_decedents_with_voters decedents db pdf_year ↔
          ∃ age, (nm, age) ∈ decedents ∧ v ∈ tbl.2 ∧
            (v.birthyear = (if pdf_year ≠ 0 then pdf_year else CURRENT_YEAR) - age - 1 ∨
             v.birthyear = (if pdf_year ≠ 0 then pdf_year else CURRENT_YEAR) - age) ∧
            is_name_match nm (voterFullName v) = true))
    ∧ (∀ (y : Int) (a : Nat), possible_birth_years y a = [y - a - 1, y - a])
    ∧ possible_birth_years 2024 66 = [1957, 1958] := by
  refine ⟨?_, fun y a => rfl, by decide⟩
  intro decedents db pdf_year tbl htbl nm v
  unfold match_decedents_with_voters
  rw [htbl]
  simp only [List.mem_flatMap, List.mem_map, List.mem_filter, possible_birth_years,
    List.contains, List.elem_iff, List.mem_cons, List.not_mem_nil, or_false]
  constructor
  · rintro ⟨d, hd, v', ⟨⟨hv', hyear⟩, hmatch⟩, heq⟩
    obtain ⟨h1, h2⟩ := Prod.mk.injEq _ _ _ _ ▸ heq
    subst h1; subst h2
    exact ⟨d.2, hd, hv', hyear, hmatch⟩
  · rintro ⟨age, hd, hv, hyear, hmatch⟩
    exact ⟨(nm, age), hd, v, ⟨⟨hv, hyear⟩, hmatch⟩, rfl⟩

theorem c4_birth_year_window_witness :
    (['a', 'n', 'n', ' ', 'l', 'e', 'e'],
      (⟨['a', 'n', 'n'], [], ['l', 'e', 'e'], 1957⟩ : Voter)) ∈
      match_decedents_with_voters [(['a', 'n', 'n', ' ', 'l', 'e', 'e'], 66)]
        [(['v', 'o', 't', 'e', 'r', 's', '_', '2', '0', '2', '5'],
          [⟨['a', 'n', 'n'], [], ['l', 'e', 'e'], 1957⟩])] 2024 := by
  exact (c4_birth_year_window.1 [(['a', 'n', 'n', ' ', 'l', 'e', 'e'], 66)]
    [(['v', 'o', 't', 'e', 'r', 's', '_', '2', '0', '2', '5'],
      [⟨['a', 'n', 'n'], [], ['l', 'e', 'e'], 1957⟩])]
    2024
    (['v', 'o', 't', 'e', 'r', 's', '_', '2', '0', '2', '5'],
      [⟨['a', 'n', 'n'], [], ['l', 'e', 'e'], 1957⟩])
    (by decide) ['a', 'n', 'n', ' ', 'l', 'e', 'e']
    ⟨['a', 'n', 'n'], [], ['l', 'e', 'e'], 1957⟩).mpr
    ⟨66, by decide, by decide, by decide, by decide⟩

/-! ## Recursion equations for the fuel-based definitions -/

theorem wordsWSF_fuel : ∀ (f f' : Nat) (l : List Char), l.length ≤ f → l.length ≤ f' →
    wordsWSF f l = wordsWSF f' l := by
  intro f
  induction f with
  | zero =>
    intro f' l hf _
    cases l with
    | nil => cases f' <;> rfl
    | cons c s => simp at hf
  | succ g ih =>
    intro f' l hf hf'
    cases l with
    | nil => cases f' <;> rfl
    | cons c s =>
      cases f' with
      | zero => simp at hf'
      | succ g' =>
        simp only [wordsWSF]
        by_cases hc : isSpaceChar c = true
        · rw [if_pos hc, if_pos hc]
          exact ih g' s (by simp at hf; omega) (by simp at hf'; omega)
        · rw [if_neg hc, if_neg hc]
          have hd := (s.dropWhile_sublist (fun d => !isSpaceChar d)).length_le
          congr 1
          exact ih g' _ (by simp at hf; omega) (by simp at hf'; omega)

theorem wordsWS_nil : wordsWS [] = [] := rfl

theorem wordsWS_cons (c : Char) (s : List Char) :
    wordsWS (c :: s) =
      if isSpaceChar c then wordsWS s
      else (c :: s.takeWhile (fun d => !isSpaceChar d)) ::
        wordsWS (s.dropWhile (fun d => !isSpaceChar d)) := by
  show wordsWSF (c :: s).length (c :: s) = _
  simp only [List.length_cons, wordsWSF]
  by_cases hc : isSpaceChar c = true
  · rw [if_pos hc, if_pos hc]
    rfl
  · rw [if_neg hc, if_neg hc]
    have hd := (s.dropWhile_sublist (fun d => !isSpaceChar d)).length_le
    have heq : wordsWSF s.length (s.dropWhile (fun d => !isSpaceChar d)) =
        wordsWS (s.dropWhile (fun d => !isSpaceChar d)) :=
      wordsWSF_fuel _ _ _ (by omega) le_rfl
    rw [heq]

theorem caseScanF_fuel : ∀ (f f' i : Nat) (l : List Char), l.length ≤ f → l.length ≤ f' →
    caseScanF f i l = caseScanF f' i l := by
  intro f
  induction f with
  | zero =>
    intro f' i l hf _
    cases l with
    | nil => cases f' <;> rfl
    | cons c s => simp at hf
  | succ g ih =>
    intro f' i l hf hf'
    cases l with
    | nil => cases f' <;> rfl
    | cons c s =>
      cases f' with
      | zero => simp at hf'
      | succ g' =>
        simp only [caseScanF]
        by_cases hc : isCaseToken ((c :: s).take 8) = true
        · rw [if_pos hc, if_pos hc]
          have hd := List.length_drop 7 s
          congr 1
          exact ih g' _ _ (by simp at hf; omega) (by simp at hf'; omega)
        · rw [if_neg hc, if_neg hc]
          exact ih g' _ s (by simp at hf; omega) (by simp at hf'; omega)

theorem caseScan_nil (i : Nat) : caseScan i [] = [] := rfl

theorem caseScan_cons (i : Nat) (c : Char) (s : List Char) :
    caseScan i (c :: s) =
      if isCaseToken ((c :: s).take 8) then i :: caseScan (i + 8) (s.drop 7)
      else caseScan (i + 1) s := by
  show caseScanF (c :: s).length i (c :: s) = _
  simp only [List.length_cons, caseScanF]
  by_cases hc : isCaseToken ((c :: s).take 8) = true
  · rw [if_pos hc, if_pos hc]
    have hd := List.length_drop 7 s
    have heq : caseScanF s.length (i + 8) (s.drop 7) = caseScan (i + 8) (s.drop 7) :=
      caseScanF_fuel _ _ _ _ (by omega) le_rfl
    rw [heq]
  · rw [if_neg hc, if_neg hc]
    rfl

theorem subMarkersF_fuel : ∀ (f f' : Nat) (l : List Char), l.length ≤ f → l.length ≤ f' →
    subMarkersF f l = subMarkersF f' l := by
  intro f
  induction f with
  | zero =>
    intro f' l hf _
    cases l with
    | nil => cases f' <;> rfl
    | cons c s => simp at hf
  | succ g ih =>
    intro f' l hf hf'
    cases l with
    | nil => cases f' <;> rfl
    | cons c s =>
      cases f' with
      | zero => simp at hf'
      | succ g' =>
        simp only [subMarkersF]
        by_cases h9 : (c :: s).take 9 = ['<', 'N', 'E', 'W', 'L', 'I', 'N', 'E', '>']
        · rw [if_pos h9, if_pos h9]
          have hd := List.length_drop 8 s
          congr 1
          exact ih g' _ (by simp at hf; omega) (by simp at hf'; omega)
        · rw [if_neg h9, if_neg h9]
          by_cases h4 : (c :: s).take 4 = ['<', 'b', 'r', '>']
          · rw [if_pos h4, if_pos h4]
            have hd := List.length_drop 3 s
            congr 1
            exact ih g' _ (by simp at hf; omega) (by simp at hf'; omega)
          · rw [if_neg h4, if_neg h4]
            congr 1
            exact ih g' s (by simp at hf; omega) (by simp at hf'; omega)

theorem subMarkers_nil : subMarkers [] = [] := rfl

theorem subMarkers_cons (c : Char) (s : List Char) :
    subMarkers (c :: s) =
      if (c :: s).take 9 = ['<', 'N', 'E', 'W', 'L', 'I', 'N', 'E', '>'] then
        ' ' :: subMarkers (s.drop 8)
      else if (c :: s).take 4 = ['<', 'b', 'r', '>'] then
        ' ' :: subMarkers (s.drop 3)
      else c :: subMarkers s := by
  show subMarkersF (c :: s).length (c :: s) = _
  simp only [List.length_cons, subMarkersF]
  by_cases h9 : (c :: s).take 9 = ['<', 'N', 'E', 'W', 'L', 'I', 'N', 'E', '>']
  · rw [if_pos h9, if_pos h9]
    have hd := List.length_drop 8 s
    have heq : subMarkersF s.length (s.drop 8) = subMarkers (s.drop 8) :=
      subMarkersF_fuel _ _ _ (by omega) le_rfl
    rw [heq]
  · rw [if_neg h9, if_neg h9]
    by_cases h4 : (c :: s).take 4 = ['<', 'b', 'r', '>']
    · rw [if_pos h4, if_pos h4]
      have hd := List.length_drop 3 s
      have heq : subMarkersF s.length (s.drop 3) = subMarkers (s.drop 3) :=
        subMarkersF_fuel _ _ _ (by omega) le_rfl
      rw [heq]
    · rw [if_neg h4, if_neg h4]
      rfl

theorem lcsLenF_fuel : ∀ (f f' : Nat) (a b : List Char),
    a.length + b.length ≤ f → a.length + b.length ≤ f' → lcsLenF f a b = lcsLenF f' a b := by
  intro f
  induction f with
  | zero =>
    intro f' a b hf _
    cases a with
    | nil => cases f' <;> rfl
    | cons x as =>
      cases b with
      | nil => cases f' <;> rfl
      | cons y bs => simp at hf
  | succ g ih =>
    intro f' a b hf hf'
    cases a with
    | nil => cases f' <;> rfl
    | cons x as =>
      cases b with
      | nil => cases f' <;> rfl
      | cons y bs =>
        cases f' with
        | zero => simp at hf'
        | succ g' =>
          simp only [lcsLenF]
          by_cases hxy : x = y
          · rw [if_pos hxy, if_pos hxy]
            congr 1
            exact ih g' as bs (by simp at hf; omega) (by simp at hf'; omega)
          · rw [if_neg hxy, if_neg hxy]
            rw [ih g' (x :: as) bs (by simp at hf ⊢; omega) (by simp at hf' ⊢; omega),
                ih g' as (y :: bs) (by simp at hf ⊢; omega) (by simp at hf' ⊢; omega)]

theorem lcsLen_nil_left (b : List Char) : lcsLen [] b = 0 := by
  cases b <;> rfl

theorem lcsLen_nil_right (a : List Char) : lcsLen a [] = 0 := by
  cases a <;> rfl

theorem lcsLen_cons (x : Char) (as : List Char) (y : Char) (bs : List Char) :
    lcsLen (x :: as) (y :: bs) =
      if x = y then lcsLen as bs + 1
      else max (lcsLen (x :: as) bs) (lcsLen as (y :: bs)) := by
  show lcsLenF ((x :: as).length + (y :: bs).length) (x :: as) (y :: bs) = _
  simp only [List.length_cons, lcsLenF]
  by_cases hxy : x = y
  · rw [if_pos hxy, if_pos hxy]
    simp only [Nat.add_eq]
    have heq : lcsLenF (as.length + 1 + bs.length) as bs = lcsLen as bs :=
      lcsLenF_fuel _ _ as bs (by omega) le_rfl
    rw [heq]
  · rw [if_neg hxy, if_neg hxy]
    simp only [Nat.add_eq]
    have heq1 : lcsLenF (as.length + 1 + bs.length) (x :: as) bs = lcsLen (x :: as) bs :=
      lcsLenF_fuel _ _ (x :: as) bs (by simp only [List.length_cons]; omega) le_rfl
    have heq2 : lcsLenF (as.length + 1 + bs.length) as (y :: bs) = lcsLen as (y :: bs) :=
      lcsLenF_fuel _ _ as (y :: bs) (by simp only [List.length_cons]; omega) le_rfl
    rw [heq1, heq2]

/-! ## Reference-store loading (C5 and C8) -/

/-- C5.  `load_voter_registration_to_sqlite` is idempotent per snapshot date:
when the dated table already exists the load returns the database unchanged
with the existing table's name, whatever the file's contents (the file is not
read); a successful load followed by a second load of a file with the same
name is a no-op returning the same handle, again whatever the second file's
contents; and a successful fresh load stores exactly one partition for the
date, whose contents are the table built from the first file. -/
theorem c5_load_idempotent (db : VotersDB) (f : VoterFile) (today : List Char) :
    (tableExists db (voterTableName f today) = true →
      ∀ c', load_voter_registration_to_sqlite db ⟨f.filename, c'⟩ today =
        .ok db (voterTableName f today))
    ∧ (∀ db' h, load_voter_registration_to_sqlite db f today = .ok db' h →
        ∀ c', load_voter_registration_to_sqlite db' ⟨f.filename, c'⟩ today = .ok db' h)
    ∧ (tableExists db (voterTableName f today) = false →
        ∀ db' h, load_voter_registration_to_sqlite db f today = .ok db' h →
        h = voterTableName f today ∧
        (∃ rows, readCsv f.contents = .ok rows ∧ db' = (h, buildTable rows) :: db) ∧
        db'.countP (fun e => e.1 == voterTableName f today) = 1) := by
  have hname : ∀ c', voterTableName ⟨f.filename, c'⟩ today = voterTableName f today :=
    fun _ => rfl
  refine ⟨?_, ?_, ?_⟩
  · intro hex c'
    simp only [load_voter_registration_to_sqlite, hname, hex, if_true]
  · intro db' h hload c'
    simp only [load_voter_registration_to_sqlite] at hload
    by_cases hex : tableExists db (voterTableName f today) = true
    · rw [if_pos hex] at hload
      cases hload
      simp only [load_voter_registration_to_sqlite, hname, hex, if_true]
    · rw [if_neg hex] at hload
      cases hr : readCsv f.contents with
      | fileNotFound => rw [hr] at hload; cases hload
      | emptyData => rw [hr] at hload; cases hload
      | tokenizeError => rw [hr] at hload; cases hload
      | ok rows =>
        rw [hr] at hload
        cases hload
        have hex' : tableExists ((voterTableName f today, buildTable rows) :: db)
            (voterTableName f today) = true := by
          simp [tableExists]
        simp only [load_voter_registration_to_sqlite, hname, hex', if_true]
  · intro hex db' h hload
    simp only [load_voter_registration_to_sqlite, hex] at hload
    rw [if_neg (by simp [hex])] at hload
    cases hr : readCsv f.contents with
    | fileNotFound => rw [hr] at hload; cases hload
    | emptyData => rw [hr] at hload; cases hload
    | tokenizeError => rw [hr] at hload; cases hload
    | ok rows =>
      rw [hr] at hload
      cases hload
      refine ⟨rfl, ⟨rows, rfl, rfl⟩, ?_⟩
      have hzero : db.countP (fun e => e.1 == voterTableName f today) = 0 := by
        rw [List.countP_eq_zero]
        intro a ha
        simp only [tableExists] at hex
        rw [List.any_eq_false] at hex
        exact hex a ha
      rw [List.countP_cons_of_pos _ _ (by simp), hzero]

theorem c5_load_idempotent_witness :
    load_voter_registration_to_sqlite
      [(['v', 'o', 't', 'e', 'r', 's', '_', '2', '0', '2', '5', '0', '1', '0', '1'],
        [⟨['a', 'n', 'n'], [], ['l', 'e', 'e'], 1957⟩])]
      ⟨['2', '0', '2', '5', '0', '1', '0', '1', '_', 'v'], none⟩
      ['2', '0', '2', '5', '0', '6', '0', '1'] =
      LoadResult.ok
        [(['v', 'o', 't', 'e', 'r', 's', '_', '2', '0', '2', '5', '0', '1', '0', '1'],
          [⟨['a', 'n', 'n'], [], ['l', 'e', 'e'], 1957⟩])]
        ['v', 'o', 't', 'e', 'r', 's', '_', '2', '0', '2', '5', '0', '1', '0', '1'] := by
  have hfirst :
      load_voter_registration_to_sqlite []
        ⟨['2', '0', '2', '5', '0', '1', '0', '1', '_', 'v'],
          some [[], [['1'], ['a', 'n', 'n'], [], ['l', 'e', 'e'], [], ['1', '9', '5', '7']]]⟩
        ['2', '0', '2', '5', '0', '6', '0', '1'] =
      LoadResult.ok
        [(['v', 'o', 't', 'e', 'r', 's', '_', '2', '0', '2', '5', '0', '1', '0', '1'],
          [⟨['a', 'n', 'n'], [], ['l', 'e', 'e'], 1957⟩])]
        ['v', 'o', 't', 'e', 'r', 's', '_', '2', '0', '2', '5', '0', '1', '0', '1'] := by
    decide
  exact (c5_load_idempotent []
    ⟨['2', '0', '2', '5', '0', '1', '0', '1', '_', 'v'],
      some [[], [['1'], ['a', 'n', 'n'], [], ['l', 'e', 'e'], [], ['1', '9', '5', '7']]]⟩
    ['2', '0', '2', '5', '0', '6', '0', '1']).2.1 _ _ hfirst none

/-- C8 counterexample.  The claim says every missing, empty, **or malformed**
voter file makes loading return a domain-specific failure value rather than
an unhandled exception.  But `load_voter_registration_to_sqlite` catches only
`FileNotFoundError` and `EmptyDataError`; a ragged file — here one whose
first data row has 33 fields and whose second data row has 34 — makes
`pd.read_csv` raise a tokenizer `ParserError` ("Expected 33 fields, saw
34"), which propagates out of `load_voter_registration_to_sqlite` and out of
`main`. -/
theorem c8_malformed_file_raises :
    load_voter_registration_to_sqlite []
        ⟨['2', '0', '2', '5', '0', '1', '0', '1', '_', 'v'],
          some [[], List.replicate 33 ['x'], List.replicate 34 ['x']]⟩
        ['2', '0', '2', '5', '0', '6', '0', '1'] = LoadResult.raised ∧
    LoadResult.raised ≠ LoadResult.loadFailed ∧
    mainRun [] []
        ⟨['2', '0', '2', '5', '0', '1', '0', '1', '_', 'v'],
          some [[], List.replicate 33 ['x'], List.replicate 34 ['x']]⟩
        ['2', '0', '2', '5', '0', '6', '0', '1'] [] ['r', '1'] ⟨2025, 6, 1⟩ false =
      MainResult.raised := by
  refine ⟨by decide, by decide, ?_⟩
  have hload : load_voter_registration_to_sqlite []
      ⟨['2', '0', '2', '5', '0', '1', '0', '1', '_', 'v'],
        some [[], List.replicate 33 ['x'], List.replicate 34 ['x']]⟩
      ['2', '0', '2', '5', '0', '6', '0', '1'] = LoadResult.raised := by decide
  simp only [mainRun, hload]

/-- C8, amended.  For every voter file that is missing (`FileNotFoundError`)
or empty (`EmptyDataError`), and whose dated partition is not already loaded,
`load_voter_registration_to_sqlite` returns the domain failure value `None`,
and on that value `main` aborts the run, performing no extraction or
matching; a ragged file whose later row exceeds the width established by its
first data row instead raises an exception that neither the loader nor
`main` catches. -/
theorem c8_load_failure_aborts (db : VotersDB) (f : VoterFile) (today : List Char)
    (L : Ledger) (pdfs : List PdfFile) (run_id : List Char) (cutoff : Date) (reset : Bool)
    (hex : tableExists db (voterTableName f today) = false)
    (hbad : f.contents = none ∨ f.contents = some []) :
    load_voter_registration_to_sqlite db f today = LoadResult.loadFailed ∧
    mainRun db L f today pdfs run_id cutoff reset = MainResult.abortedNoVoterData := by
  have hload : load_voter_registration_to_sqlite db f today = LoadResult.loadFailed := by
    simp only [load_voter_registration_to_sqlite]
    rw [if_neg (by simp [hex])]
    rcases hbad with h | h <;> rw [h] <;> rfl
  refine ⟨hload, ?_⟩
  simp only [mainRun, hload]

theorem c8_load_failure_aborts_witness :
    load_voter_registration_to_sqlite []
        ⟨['2', '0', '2', '5', '0', '1', '0', '1', '_', 'v'], none⟩
        ['2', '0', '2', '5', '0', '6', '0', '1'] = LoadResult.loadFailed ∧
    mainRun [] [] ⟨['2', '0', '2', '5', '0', '1', '0', '1', '_', 'v'], none⟩
        ['2', '0', '2', '5', '0', '6', '0', '1'] [] ['r', '1'] ⟨2025, 6, 1⟩ false =
      MainResult.abortedNoVoterData :=
  c8_load_failure_aborts [] ⟨['2', '0', '2', '5', '0', '1', '0', '1', '_', 'v'], none⟩
    ['2', '0', '2', '5', '0', '6', '0', '1'] [] [] ['r', '1'] ⟨2025, 6, 1⟩ false
    (by decide) (Or.inl rfl)

/-! ## Name matcher (C2, C3, C9) -/

theorem lcsLen_self (l : List Char) : lcsLen l l = l.length := by
  induction l with
  | nil => rfl
  | cons x xs ih => rw [lcsLen_cons, if_pos rfl, ih]; rfl

theorem ratio_self (l : List Char) : ratio l l = 100 := by
  unfold ratio
  by_cases h : l.length + l.length = 0
  · rw [if_pos h]
  · rw [if_neg h, lcsLen_self]
    simp only [pyRound]
    have hpos : 0 < l.length := by omega
    have h2 : l.length + l.length = 2 * l.length := by ring
    have hq : 200 * l.length / (l.length + l.length) = 100 := by
      rw [h2, show 200 * l.length = 100 * (2 * l.length) by ring]
      exact Nat.mul_div_cancel _ (by omega)
    have hr : 200 * l.length % (l.length + l.length) = 0 := by
      rw [h2, show 200 * l.length = 100 * (2 * l.length) by ring]
      exact Nat.mul_mod_left _ _
    rw [hq, hr, if_pos (by omega)]

theorem lcsLenF_comm : ∀ (f : Nat) (a b : List Char), lcsLenF f a b = lcsLenF f b a := by
  intro f
  induction f with
  | zero =>
    intro a b
    cases a <;> cases b <;> rfl
  | succ g ih =>
    intro a b
    cases a with
    | nil => cases b <;> rfl
    | cons x as =>
      cases b with
      | nil => rfl
      | cons y bs =>
        simp only [lcsLenF]
        by_cases hxy : x = y
        · rw [if_pos hxy, if_pos hxy.symm, ih as bs]
        · rw [if_neg hxy, if_neg (fun h => hxy h.symm), ih (x :: as) bs, ih as (y :: bs),
            Nat.max_comm]

theorem lcsLen_comm (a b : List Char) : lcsLen a b = lcsLen b a := by
  unfold lcsLen
  rw [lcsLenF_comm, lcsLenF_fuel (a.length + b.length) (b.length + a.length) b a (by omega) (by omega)]

theorem ratio_comm (a b : List Char) : ratio a b = ratio b a := by
  unfold ratio
  rw [lcsLen_comm, Nat.add_comm a.length b.length]

theorem middle_chain_eq (m1 m2 : List Char) :
    (if m1 = m2 then true
     else if m1.length = 1 ∧ m1.isPrefixOf m2 then true
     else if m2.length = 1 ∧ m2.isPrefixOf m1 then true
     else false) =
    (if m2 = m1 then true
     else if m2.length = 1 ∧ m2.isPrefixOf m1 then true
     else if m1.length = 1 ∧ m1.isPrefixOf m2 then true
     else false) := by
  by_cases heq : m1 = m2
  · subst heq; simp
  · have heq' : ¬ m2 = m1 := fun h => heq h.symm
    by_cases hc1 : m1.length = 1 ∧ m1.isPrefixOf m2 = true <;>
      by_cases hc2 : m2.length = 1 ∧ m2.isPrefixOf m1 = true <;>
        simp [heq, heq', hc1, hc2] <;>
      exact Bool.or_comm _ _

/-- C2.  Middle-name policy: whenever both splits succeed and the first- and
last-name ratios both exceed 90, the pair matches iff one side has no middle
component, or the middles are equal, or one middle is a single character that
is a prefix of the other.  In particular the Creegan examples: a
single-letter middle initial matches its full middle, differing full middles
do not. -/
theorem c2_middle_name_policy :
    (∀ (dn vn f1 m1 l1 f2 m2 l2 : List Char),
      split_name dn = some (f1, m1, l1) → split_name vn = some (f2, m2, l2) →
      90 < ratio f1 f2 → 90 < ratio l1 l2 →
      (is_name_match dn vn = true ↔
        (m1 = [] ∨ m2 = [] ∨ m1 = m2 ∨
         (m1.length = 1 ∧ m1 <+: m2) ∨ (m2.length = 1 ∧ m2 <+: m1))))
    ∧ is_name_match
        ['m', 'i', 'c', 'h', 'a', 'e', 'l', ' ', 'j', 'o', 's', 'e', 'p', 'h', ' ',
         'c', 'r', 'e', 'e', 'g', 'a', 'n']
        ['m', 'i', 'c', 'h', 'a', 'e', 'l', ' ', 'j', ' ',
         'c', 'r', 'e', 'e', 'g', 'a', 'n'] = true
    ∧ is_name_match
        ['m', 'i', 'c', 'h', 'a', 'e', 'l', ' ', 'j', 'o', 's', 'e', 'p', 'h', ' ',
         'c', 'r', 'e', 'e', 'g', 'a', 'n']
        ['m', 'i', 'c', 'h', 'a', 'e', 'l', ' ', 'j', 'a', 'm', 'e', 's', ' ',
         'c', 'r', 'e', 'e', 'g', 'a', 'n'] = false := by
  refine ⟨?_, by decide, by decide⟩
  intro dn vn f1 m1 l1 f2 m2 l2 hdn hvn hf hl
  simp only [is_name_match, hdn, hvn]
  rw [if_pos ⟨hf, hl⟩]
  by_cases hm : m1 ≠ [] ∧ m2 ≠ []
  · rw [if_pos hm]
    by_cases heq : m1 = m2
    · subst heq
      rw [if_pos rfl]
      exact iff_of_true rfl (Or.inr (Or.inr (Or.inl rfl)))
    · rw [if_neg heq]
      by_cases hc1 : m1.length = 1 ∧ m1.isPrefixOf m2 = true
      · rw [if_pos hc1]
        exact iff_of_true rfl
          (Or.inr (Or.inr (Or.inr (Or.inl ⟨hc1.1, List.isPrefixOf_iff_prefix.mp hc1.2⟩))))
      · rw [if_neg hc1]
        by_cases hc2 : m2.length = 1 ∧ m2.isPrefixOf m1 = true
        · rw [if_pos hc2]
          exact iff_of_true rfl
            (Or.inr (Or.inr (Or.inr (Or.inr ⟨hc2.1, List.isPrefixOf_iff_prefix.mp hc2.2⟩))))
        · rw [if_neg hc2]
          refine iff_of_false (by simp) ?_
          rintro (h | h | h | ⟨hlen, hpre⟩ | ⟨hlen, hpre⟩)
          · exact hm.1 h
          · exact hm.2 h
          · exact heq h
          · exact hc1 ⟨hlen, List.isPrefixOf_iff_prefix.mpr hpre⟩
          · exact hc2 ⟨hlen, List.isPrefixOf_iff_prefix.mpr hpre⟩
  · rw [if_neg hm]
    refine iff_of_true rfl ?_
    rcases Decidable.not_and_iff_or_not.mp hm with h | h
    · exact Or.inl (Decidable.not_not.mp h)
    · exact Or.inr (Or.inl (Decidable.not_not.mp h))

theorem c2_middle_name_policy_witness :
    is_name_match
      ['m', 'i', 'c', 'h', 'a', 'e', 'l', ' ', 'j', 'o', 's', 'e', 'p', 'h', ' ',
       'c', 'r', 'e', 'e', 'g', 'a', 'n']
      ['m', 'i', 'c', 'h', 'a', 'e', 'l', ' ', 'j', ' ',
       'c', 'r', 'e', 'e', 'g', 'a', 'n'] = true := by
  have h := c2_middle_name_policy.1
    ['m', 'i', 'c', 'h', 'a', 'e', 'l', ' ', 'j', 'o', 's', 'e', 'p', 'h', ' ',
     'c', 'r', 'e', 'e', 'g', 'a', 'n']
    ['m', 'i', 'c', 'h', 'a', 'e', 'l', ' ', 'j', ' ', 'c', 'r', 'e', 'e', 'g', 'a', 'n']
    ['m', 'i', 'c', 'h', 'a', 'e', 'l'] ['j', 'o', 's', 'e', 'p', 'h']
    ['c', 'r', 'e', 'e', 'g', 'a', 'n']
    ['m', 'i', 'c', 'h', 'a', 'e', 'l'] ['j'] ['c', 'r', 'e', 'e', 'g', 'a', 'n']
    (by decide) (by decide) (by decide) (by decide)
  exact h.mpr (Or.inr (Or.inr (Or.inr (Or.inr ⟨rfl, ⟨['o', 's', 'e', 'p', 'h'], rfl⟩⟩))))

/-- C3.  A name with fewer than 2 whitespace-separated tokens never matches;
and a match can only happen when both the first-token ratio and the
last-token ratio strictly exceed 90. -/
theorem c3_match_prerequisites (dn vn : List Char) :
    ((tokensOf dn).length < 2 ∨ (tokensOf vn).length < 2 → is_name_match dn vn = false)
    ∧ (is_name_match dn vn = true →
        ∃ f1 m1 l1 f2 m2 l2,
          split_name dn = some (f1, m1, l1) ∧ split_name vn = some (f2, m2, l2) ∧
          90 < ratio f1 f2 ∧ 90 < ratio l1 l2) := by
  constructor
  · intro h
    rcases h with h | h
    · have hnone : split_name dn = none := by
        simp only [split_name]
        rw [if_pos h]
      cases hvn : split_name vn <;> simp [is_name_match, hnone, hvn]
    · have hnone : split_name vn = none := by
        simp only [split_name]
        rw [if_pos h]
      cases hdn : split_name dn <;> simp [is_name_match, hdn, hnone]
  · intro h
    rcases hdn : split_name dn with _ | ⟨f1, m1, l1⟩ <;>
      rcases hvn : split_name vn with _ | ⟨f2, m2, l2⟩ <;>
        simp only [is_name_match, hdn, hvn] at h
    · exact absurd h (by simp)
    · exact absurd h (by simp)
    · exact absurd h (by simp)
    · by_cases hsim : 90 < ratio f1 f2 ∧ 90 < ratio l1 l2
      · exact ⟨f1, m1, l1, f2, m2, l2, rfl, rfl, hsim.1, hsim.2⟩
      · rw [if_neg hsim] at h
        exact absurd h (by simp)

theorem c3_match_prerequisites_witness :
    is_name_match ['x'] ['a', ' ', 'b'] = false ∧
    ∃ f1 m1 l1 f2 m2 l2,
      split_name ['a', 'n', 'n', ' ', 'l', 'e', 'e'] = some (f1, m1, l1) ∧
      split_name ['a', 'n', 'n', ' ', 'l', 'e', 'e'] = some (f2, m2, l2) ∧
      90 < ratio f1 f2 ∧ 90 < ratio l1 l2 :=
  ⟨(c3_match_prerequisites ['x'] ['a', ' ', 'b']).1 (Or.inl (by decide)),
   (c3_match_prerequisites ['a', 'n', 'n', ' ', 'l', 'e', 'e']
      ['a', 'n', 'n', ' ', 'l', 'e', 'e']).2 (by decide)⟩

/-- C9.  `is_name_match` is symmetric: the edit-distance ratio is symmetric
and each branch of the middle-name rule is applied in both directions. -/
theorem c9_is_name_match_symmetric (a b : List Char) :
    is_name_match a b = is_name_match b a := by
  rcases hsa : split_name a with _ | ⟨f1, m1, l1⟩ <;>
    rcases hsb : split_name b with _ | ⟨f2, m2, l2⟩
  · simp [is_name_match, hsa, hsb]
  · simp [is_name_match, hsa, hsb]
  · simp [is_name_match, hsa, hsb]
  · simp only [is_name_match, hsa, hsb]
    rw [ratio_comm f2 f1, ratio_comm l2 l1]
    by_cases hsim : 90 < ratio f1 f2 ∧ 90 < ratio l1 l2
    · rw [if_pos hsim, if_pos hsim]
      by_cases hm : m1 ≠ [] ∧ m2 ≠ []
      · rw [if_pos hm, if_pos (⟨hm.2, hm.1⟩ : m2 ≠ [] ∧ m1 ≠ [])]
        exact middle_chain_eq m1 m2
      · rw [if_neg hm, if_neg (fun h => hm ⟨h.2, h.1⟩)]
    · rw [if_neg hsim, if_neg hsim]

/-! ## String-normalization lemmas for the extractor (C6, C7) -/

theorem takeWhile_append_of_false (b : List Char) (q : Char → Bool)
    (hb : ∀ c ∈ b, q c = false) :
    ∀ s : List Char, (s ++ b).takeWhile q = s.takeWhile q := by
  intro s
  induction s with
  | nil =>
    cases b with
    | nil => rfl
    | cons c b' => simp [List.takeWhile_cons, hb c (List.mem_cons_self c b')]
  | cons c s' ih =>
    simp only [List.cons_append, List.takeWhile_cons]
    cases hq : q c with
    | true => simp [ih]
    | false => simp

theorem dropWhile_append_of_false (b : List Char) (q : Char → Bool)
    (hb : ∀ c ∈ b, q c = false) :
    ∀ s : List Char, (s ++ b).dropWhile q = s.dropWhile q ++ b := by
  intro s
  induction s with
  | nil =>
    cases b with
    | nil => rfl
    | cons c b' => simp [List.dropWhile_cons, hb c (List.mem_cons_self c b')]
  | cons c s' ih =>
    simp only [List.cons_append, List.dropWhile_cons]
    cases hq : q c with
    | true => simp [ih]
    | false => simp

theorem wordsWS_all_ws (b : List Char) (hb : ∀ c ∈ b, isSpaceChar c = true) :
    wordsWS b = [] := by
  induction b with
  | nil => rfl
  | cons c b' ih =>
    rw [wordsWS_cons, if_pos (hb c (List.mem_cons_self c b'))]
    exact ih (fun d hd => hb d (List.mem_cons_of_mem c hd))

theorem wordsWS_append_ws_aux (b : List Char) (hb : ∀ c ∈ b, isSpaceChar c = true) :
    ∀ (n : Nat) (x : List Char), x.length ≤ n → wordsWS (x ++ b) = wordsWS x := by
  intro n
  induction n with
  | zero =>
    intro x hx
    cases x with
    | nil => exact wordsWS_all_ws b hb
    | cons c s => simp at hx
  | succ m ih =>
    intro x hx
    cases x with
    | nil => exact wordsWS_all_ws b hb
    | cons c s =>
      rw [List.cons_append, wordsWS_cons, wordsWS_cons]
      by_cases hc : isSpaceChar c = true
      · rw [if_pos hc, if_pos hc]
        exact ih s (by simp at hx; omega)
      · rw [if_neg hc, if_neg hc]
        have hq : ∀ d ∈ b, (fun d => !isSpaceChar d) d = false := by
          intro d hd; simp [hb d hd]
        rw [takeWhile_append_of_false b _ hq, dropWhile_append_of_false b _ hq]
        have hd := (s.dropWhile_sublist (fun d => !isSpaceChar d)).length_le
        rw [ih (s.dropWhile (fun d => !isSpaceChar d)) (by simp at hx; omega)]

theorem wordsWS_append_ws (x b : List Char) (hb : ∀ c ∈ b, isSpaceChar c = true) :
    wordsWS (x ++ b) = wordsWS x :=
  wordsWS_append_ws_aux b hb x.length x le_rfl

theorem wordsWS_ws_append (a : List Char) (ha : ∀ c ∈ a, isSpaceChar c = true)
    (x : List Char) : wordsWS (a ++ x) = wordsWS x := by
  induction a with
  | nil => rfl
  | cons c a' ih =>
    rw [List.cons_append, wordsWS_cons, if_pos (ha c (List.mem_cons_self c a'))]
    exact ih (fun d hd => ha d (List.mem_cons_of_mem c hd))

theorem wordsWS_dropWhile (l : List Char) :
    wordsWS (l.dropWhile isSpaceChar) = wordsWS l := by
  induction l with
  | nil => rfl
  | cons c s ih =>
    rw [List.dropWhile_cons]
    by_cases hc : isSpaceChar c = true
    · rw [if_pos hc, wordsWS_cons, if_pos hc]
      exact ih
    · rw [if_neg hc]

theorem wordsWS_strip (l : List Char) : wordsWS (stripWS l) = wordsWS l := by
  have hy : l.dropWhile isSpaceChar =
      stripWS l ++ ((l.dropWhile isSpaceChar).reverse.takeWhile isSpaceChar).reverse := by
    conv_lhs => rw [← (l.dropWhile isSpaceChar).reverse_reverse,
      ← List.takeWhile_append_dropWhile (p := isSpaceChar)
        (l := (l.dropWhile isSpaceChar).reverse)]
    rw [List.reverse_append]
    rfl
  have htr : ∀ c ∈ ((l.dropWhile isSpaceChar).reverse.takeWhile isSpaceChar).reverse,
      isSpaceChar c = true := by
    intro c hc
    exact List.mem_takeWhile_imp (List.mem_reverse.mp hc)
  have h2 : wordsWS (l.dropWhile isSpaceChar) = wordsWS (stripWS l) := by
    conv_lhs => rw [hy]
    exact wordsWS_append_ws _ _ htr
  rw [← h2, wordsWS_dropWhile]

theorem subMarkers_ws_append (a : List Char) (ha : ∀ c ∈ a, isSpaceChar c = true) :
    ∀ r : List Char, subMarkers (a ++ r) = a ++ subMarkers r := by
  induction a with
  | nil => intro r; rfl
  | cons c a' ih =>
    intro r
    have hcw : isSpaceChar c = true := ha c (List.mem_cons_self c a')
    have hlt : c ≠ '<' := by
      intro h
      rw [h] at hcw
      exact absurd hcw (by decide)
    have hne9 : (c :: (a' ++ r)).take 9 ≠ ['<', 'N', 'E', 'W', 'L', 'I', 'N', 'E', '>'] := by
      intro h
      rw [List.take_succ_cons] at h
      exact hlt (List.cons.injEq .. ▸ h).1
    have hne4 : (c :: (a' ++ r)).take 4 ≠ ['<', 'b', 'r', '>'] := by
      intro h
      rw [List.take_succ_cons] at h
      exact hlt (List.cons.injEq .. ▸ h).1
    rw [List.cons_append, subMarkers_cons, if_neg hne9, if_neg hne4,
      ih (fun d hd => ha d (List.mem_cons_of_mem c hd)) r, List.cons_append]

theorem subMarkers_all_ws (b : List Char) (hb : ∀ c ∈ b, isSpaceChar c = true) :
    subMarkers b = b := by
  have h := subMarkers_ws_append b hb []
  have h2 : subMarkers ([] : List Char) = [] := rfl
  rw [h2] at h
  simp only [List.append_nil] at h
  exact h

theorem take_marker_le_length (m x b : List Char) (k : Nat) (hk : m.length = k)
    (hm : ∀ c ∈ m, isSpaceChar c = false) (hb : ∀ c ∈ b, isSpaceChar c = true)
    (h : (x ++ b).take k = m) : k ≤ x.length := by
  by_contra hlt
  push_neg at hlt
  rw [List.take_append_eq_append_take] at h
  rw [List.take_of_length_le (le_of_lt hlt)] at h
  have hmlen := congrArg List.length h
  simp only [List.length_append, List.length_take, hk] at hmlen
  have hylen : (b.take (k - x.length)).length = k - x.length := by
    simp only [List.length_take]
    omega
  have hpos : 0 < (b.take (k - x.length)).length := by omega
  obtain ⟨d, hd⟩ := List.exists_mem_of_length_pos hpos
  have hdb : d ∈ b := List.take_subset _ _ hd
  have hdm : d ∈ m := by
    rw [← h]
    exact List.mem_append_right _ hd
  have h1 := hb d hdb
  have h2 := hm d hdm
  rw [h1] at h2
  exact absurd h2 (by simp)

theorem subMarkers_append_ws_aux (b : List Char) (hb : ∀ c ∈ b, isSpaceChar c = true) :
    ∀ (n : Nat) (x : List Char), x.length ≤ n → subMarkers (x ++ b) = subMarkers x ++ b := by
  intro n
  induction n with
  | zero =>
    intro x hx
    cases x with
    | nil =>
      rw [List.nil_append, subMarkers_all_ws b hb]
      rfl
    | cons c s => simp at hx
  | succ m ih =>
    intro x hx
    cases x with
    | nil =>
      rw [List.nil_append, subMarkers_all_ws b hb]
      rfl
    | cons c s =>
      rw [List.cons_append, subMarkers_cons, subMarkers_cons]
      by_cases h9 : (c :: (s ++ b)).take 9 = ['<', 'N', 'E', 'W', 'L', 'I', 'N', 'E', '>']
      · have hlen : 9 ≤ (c :: s).length :=
          take_marker_le_length ['<', 'N', 'E', 'W', 'L', 'I', 'N', 'E', '>'] (c :: s) b 9
            rfl (by decide) hb h9
        have h9' : (c :: s).take 9 = ['<', 'N', 'E', 'W', 'L', 'I', 'N', 'E', '>'] :=
          ((List.take_append_of_le_length hlen).symm).trans h9
        rw [if_pos h9, if_pos h9']
        have h8 : 8 ≤ s.length := by simp at hlen; omega
        rw [List.drop_append_of_le_length h8]
        rw [ih (s.drop 8) (by simp only [List.length_cons] at hx
                              simp only [List.length_drop]
                              omega)]
        rfl
      · rw [if_neg h9]
        have h9x : ¬ (c :: s).take 9 = ['<', 'N', 'E', 'W', 'L', 'I', 'N', 'E', '>'] := by
          intro hcontra
          have hlen : 9 ≤ (c :: s).length := by
            have hl := congrArg List.length hcontra
            simp [List.length_take] at hl
            simp only [List.length_cons]
            omega
          exact h9 ((List.take_append_of_le_length hlen).trans hcontra)
        rw [if_neg h9x]
        by_cases h4 : (c :: (s ++ b)).take 4 = ['<', 'b', 'r', '>']
        · have hlen : 4 ≤ (c :: s).length :=
            take_marker_le_length ['<', 'b', 'r', '>'] (c :: s) b 4
              rfl (by decide) hb h4
          have h4' : (c :: s).take 4 = ['<', 'b', 'r', '>'] :=
            ((List.take_append_of_le_length hlen).symm).trans h4
          rw [if_pos h4, if_pos h4']
          have h3 : 3 ≤ s.length := by simp at hlen; omega
          rw [List.drop_append_of_le_length h3]
          rw [ih (s.drop 3) (by simp only [List.length_cons] at hx
                                simp only [List.length_drop]
                                omega)]
          rfl
        · rw [if_neg h4]
          have h4x : ¬ (c :: s).take 4 = ['<', 'b', 'r', '>'] := by
            intro hcontra
            have hlen : 4 ≤ (c :: s).length := by
              have hl := congrArg List.length hcontra
              simp [List.length_take] at hl
              simp only [List.length_cons]
              omega
            exact h4 ((List.take_append_of_le_length hlen).trans hcontra)
          rw [if_neg h4x, ih s (by simp at hx; omega)]
          rfl

theorem subMarkers_append_ws (x b : List Char) (hb : ∀ c ∈ b, isSpaceChar c = true) :
    subMarkers (x ++ b) = subMarkers x ++ b :=
  subMarkers_append_ws_aux b hb x.length x le_rfl

/-- The inner `strip` performed by the extractor before the marker
substitution does not change the final token list: splitting after
substitution sees the same words whether or not the slice was stripped
first. -/
theorem words_sub_strip (l : List Char) :
    wordsWS (stripWS (subMarkers (stripWS l))) = wordsWS (subMarkers l) := by
  rw [wordsWS_strip]
  have hlead : ∀ c ∈ l.takeWhile isSpaceChar, isSpaceChar c = true := by
    intro c hc
    exact List.mem_takeWhile_imp hc
  have htr : ∀ c ∈ ((l.dropWhile isSpaceChar).reverse.takeWhile isSpaceChar).reverse,
      isSpaceChar c = true := by
    intro c hc
    exact List.mem_takeWhile_imp (List.mem_reverse.mp hc)
  have hy : l.dropWhile isSpaceChar =
      stripWS l ++ ((l.dropWhile isSpaceChar).reverse.takeWhile isSpaceChar).reverse := by
    conv_lhs => rw [← (l.dropWhile isSpaceChar).reverse_reverse,
      ← List.takeWhile_append_dropWhile (p := isSpaceChar)
        (l := (l.dropWhile isSpaceChar).reverse)]
    rw [List.reverse_append]
    rfl
  have hsplit : l = l.takeWhile isSpaceChar ++
      (stripWS l ++ ((l.dropWhile isSpaceChar).reverse.takeWhile isSpaceChar).reverse) := by
    conv_lhs => rw [← List.takeWhile_append_dropWhile (p := isSpaceChar) (l := l)]
    rw [← hy]
  conv_rhs => rw [hsplit]
  rw [subMarkers_ws_append _ hlead, subMarkers_append_ws _ _ htr,
    wordsWS_ws_append _ hlead]
  exact (wordsWS_append_ws _ _ htr).symm

/-- The extractor's name pipeline (`strip`, marker substitution, `strip`,
join-split, lower-case) agrees with the claim's description (marker
substitution, whitespace normalization, lower-case). -/
theorem normalizeName_eq_claim (l : List Char) : normalizeName l = claimNameNormal l := by
  unfold normalizeName claimNameNormal
  rw [words_sub_strip]

theorem isCaseToken_length (w : List Char) (h : isCaseToken w = true) : w.length = 8 := by
  simp only [isCaseToken, Bool.and_eq_true, beq_iff_eq] at h
  exact h.1.1.1.1.1.1.1.1

theorem caseScan_sound_aux :
    ∀ (n : Nat) (l : List Char) (i p : Nat), l.length ≤ n → p ∈ caseScan i l →
      i ≤ p ∧ isCaseToken ((l.drop (p - i)).take 8) = true := by
  intro n
  induction n with
  | zero =>
    intro l i p hn hp
    cases l with
    | nil => exact absurd hp (by simp [caseScan_nil])
    | cons c s => simp at hn
  | succ m ih =>
    intro l i p hn hp
    cases l with
    | nil => exact absurd hp (by simp [caseScan_nil])
    | cons c s =>
      rw [caseScan_cons] at hp
      by_cases hc : isCaseToken ((c :: s).take 8) = true
      · rw [if_pos hc] at hp
        rcases List.mem_cons.mp hp with heq | hp'
        · subst heq
          refine ⟨le_rfl, ?_⟩
          rw [Nat.sub_self]
          exact hc
        · obtain ⟨hip, htok⟩ := ih (s.drop 7) (i + 8) p
            (by simp only [List.length_cons] at hn
                simp only [List.length_drop]
                omega) hp'
          refine ⟨by omega, ?_⟩
          rw [List.drop_drop] at htok
          have harith : p - i = (7 + (p - (i + 8))) + 1 := by omega
          rw [harith, List.drop_succ_cons]
          exact htok
      · rw [if_neg hc] at hp
        obtain ⟨hip, htok⟩ := ih s (i + 1) p
          (by simp only [List.length_cons] at hn; omega) hp
        refine ⟨by omega, ?_⟩
        have harith : p - i = (p - (i + 1)) + 1 := by omega
        rw [harith, List.drop_succ_cons]
        exact htok

theorem caseScan_sound (t : List Char) (p : Nat) (hp : p ∈ caseScan 0 t) :
    isCaseToken ((t.drop p).take 8) = true := by
  have h := caseScan_sound_aux t.length t 0 p le_rfl hp
  simpa using h.2

theorem ageSearch_pos_lt :
    ∀ (l : List Char) (i p : Nat) (ds : List Char),
      ageSearch i l = some (p, ds) → i ≤ p ∧ p - i < l.length := by
  intro l
  induction l with
  | nil =>
    intro i p ds h
    simp [ageSearch] at h
  | cons c s ih =>
    intro i p ds h
    simp only [ageSearch] at h
    cases hm : ageMatchHere (c :: s) with
    | some ds' =>
      rw [hm] at h
      cases h
      exact ⟨le_rfl, by simp⟩
    | none =>
      rw [hm] at h
      obtain ⟨hip, hlt⟩ := ih (i + 1) p ds h
      exact ⟨by omega, by simp only [List.length_cons]; omega⟩

theorem filterMap_length_countP {α β : Type} (f : α → Option β) :
    ∀ l : List α, (l.filterMap f).length = l.countP (fun a => (f a).isSome) := by
  intro l
  induction l with
  | nil => rfl
  | cons a l ih =>
    cases hf : f a with
    | none =>
      rw [List.filterMap_cons_none hf, List.countP_cons_of_neg _ _ (by simp [hf]), ih]
    | some b =>
      rw [List.filterMap_cons_some hf, List.countP_cons_of_pos _ _ (by simp [hf]),
        List.length_cons, ih]

/-- C6.  Extracted-name construction: whenever case match `i` starts at `s`
and the age regex first matches the entry span (of text whose line breaks are
already marked) at relative position `p` with digit group `ds`, the record
produced for that entry carries exactly the claim's name — the substring of
the text strictly between the end of the case-number token (`s + 8`) and the
start of the age token (`s + p`), with line-break markers collapsed to single
spaces, whitespace runs normalized to single spaces, surrounding whitespace
stripped, and the result lower-cased — together with the parsed age digits
and the 8-character case-number token. -/
theorem c6_extracted_name (t : List Char) (i s p : Nat) (ds : List Char)
    (hs : (caseScan 0 t)[i]? = some s)
    (ha : ageSearch 0 ((t.drop s).take (entryEnd t i - s)) = some (p, ds)) :
    (⟨claimNameNormal ((t.drop (s + 8)).take (p - 8)), charsToNat ds,
      (t.drop s).take 8⟩ : DecRec) ∈ extractEntries t := by
  have hlt : i < (caseScan 0 t).length := by
    rcases List.getElem?_eq_some.mp hs with ⟨hlt, _⟩
    exact hlt
  have hsmem : s ∈ caseScan 0 t := List.getElem?_mem hs
  have htok : isCaseToken ((t.drop s).take 8) = true := caseScan_sound t s hsmem
  have hlen8 : ((t.drop s).take 8).length = 8 := isCaseToken_length _ htok
  have hplt : p < ((t.drop s).take (entryEnd t i - s)).length := by
    have h := ageSearch_pos_lt _ 0 p ds ha
    simpa using h.2
  have hple : p ≤ entryEnd t i - s := by
    have hmin : ((t.drop s).take (entryEnd t i - s)).length ≤ entryEnd t i - s := by
      rw [List.length_take]
      exact min_le_left _ _
    omega
  have hslice : (((t.drop s).take (entryEnd t i - s)).drop 8).take (p - 8) =
      (t.drop (s + 8)).take (p - 8) := by
    rw [List.drop_take]
    have hdd : (t.drop s).drop 8 = t.drop (s + 8) := by
      rw [List.drop_drop]
    rw [hdd, List.take_take, Nat.min_eq_left (by omega)]
  simp only [extractEntries]
  refine List.mem_filterMap.mpr ⟨i, List.mem_range.mpr hlt, ?_⟩
  simp only [hs, ha, hlen8, hslice, normalizeName_eq_claim]

theorem c6_extracted_name_witness :
    (⟨claimNameNormal
        ((("23-10001 ann lee 45 years".toList).drop (0 + 8)).take (17 - 8)),
      charsToNat ['4', '5'],
      ("23-10001 ann lee 45 years".toList.drop 0).take 8⟩ : DecRec) ∈
      extractEntries "23-10001 ann lee 45 years".toList :=
  c6_extracted_name "23-10001 ann lee 45 years".toList 0 0 17 ['4', '5']
    (by decide) (by decide)

/-- C7.  Malformed-entry tolerance: the entry spans are delimited exactly by
the scanner's case-number matches (each selected position carries a token
matching `\d{2}-\d{5}`); extraction equals the span-by-span record builder,
where a span whose entry contains no age token yields no record (`none`) and
extraction simply continues; and the number of extracted records is exactly
the number of spans whose entry does contain an age token — extraction is a
total function and always returns a finite list, never an error. -/
theorem c7_entry_spans_total (t : List Char) :
    (∀ p ∈ caseScan 0 t, isCaseToken ((t.drop p).take 8) = true)
    ∧ extractEntries t = (entrySpans t).filterMap (recOfSpan t)
    ∧ (extractEntries t).length =
        (entrySpans t).countP
          (fun sp => (ageSearch 0 ((t.drop sp.1).take (sp.2 - sp.1))).isSome) := by
  have hb : extractEntries t = (entrySpans t).filterMap (recOfSpan t) := by
    simp only [extractEntries, entrySpans]
    rw [List.filterMap_map]
    refine List.filterMap_congr ?_
    intro i hi
    have hilt := List.mem_range.mp hi
    have hsome : (caseScan 0 t)[i]? = some ((caseScan 0 t)[i]) :=
      List.getElem?_eq_getElem hilt
    have hgd : (caseScan 0 t).getD i 0 = (caseScan 0 t)[i] :=
      List.getD_eq_getElem (caseScan 0 t) 0 hilt
    have hmem : (caseScan 0 t)[i] ∈ caseScan 0 t := List.getElem_mem hilt
    have hlen8 : ((t.drop ((caseScan 0 t)[i])).take 8).length = 8 :=
      isCaseToken_length _ (caseScan_sound t _ hmem)
    simp only [Function.comp, hsome, hgd, recOfSpan, hlen8]
  refine ⟨fun p hp => caseScan_sound t p hp, hb, ?_⟩
  have hrec : ∀ sp : Nat × Nat, (recOfSpan t sp).isSome =
      (ageSearch 0 ((t.drop sp.1).take (sp.2 - sp.1))).isSome := by
    intro sp
    simp only [recOfSpan]
    cases hage : ageSearch 0 ((t.drop sp.1).take (sp.2 - sp.1)) with
    | none => rfl
    | some pds =>
      obtain ⟨p, ds⟩ := pds
      rfl
  rw [hb, filterMap_length_countP]
  refine List.countP_congr ?_
  intro sp _
  rw [hrec sp]

theorem c7_entry_spans_total_witness :
    isCaseToken
      ((("99-11111 no age 23-10002 bob ray 30 years".toList).drop 16).take 8) = true :=
  (c7_entry_spans_total "99-11111 no age 23-10002 bob ray 30 years".toList).1 16 (by decide)
